import Mathlib

/-! spa-resolver: routing of a single page application

A shallow embedding of `resolver.go` (package `resolver`) and of the few functions of
Go's `strings` package it calls, followed by the properties of the dispatch function
`handleSpa` and of the configuration builder.

Modelling conventions

* A Go `string` is a `Str`, a list of characters, one element per byte of the Go string.
  Request paths and directory names in the examples are ASCII, where a byte, a rune and a
  character coincide.
* The filesystem is a record `FS` of the two calls the package makes: `os.Stat` (does the
  call return a nil error) and `ioutil.ReadFile` (the bytes, or an error).
* `http.ResponseWriter` is a record of the status line written so far and the body.
* A pointer to a `SpaConfig` is an index into the list of configurations allocated so far.
-/

namespace Resolver

/-- A Go string, as the list of its bytes. -/
abbrev Str := List Char

/-! ## The functions of package `strings` used by the resolver -/

/-- Go `strings.HasPrefix`: `len(s) >= len(prefix) && s[:len(prefix)] == prefix`. -/
def HasPrefix (s pre : Str) : Bool :=
  decide (s.length ≥ pre.length) && (s.take pre.length == pre)

/-- Go `strings.HasSuffix`: `len(s) >= len(suffix) && s[len(s)-len(suffix):] == suffix`. -/
def HasSuffix (s suf : Str) : Bool :=
  decide (s.length ≥ suf.length) && (s.drop (s.length - suf.length) == suf)

/-- Go `strings.TrimRight`: `s` with all trailing characters contained in `cutset` removed. -/
def TrimRight (s cutset : Str) : Str :=
  s.rdropWhile (fun c => cutset.contains c)

/-- Go `strings.TrimLeft`: `s` with all leading characters contained in `cutset` removed. -/
def TrimLeft (s cutset : Str) : Str :=
  s.dropWhile (fun c => cutset.contains c)

/-- Position of the first occurrence of `substr` in `s`, scanning from the left. -/
def indexAux (substr : Str) : Str → Option Nat
  | [] => if substr = [] then some 0 else none
  | c :: t =>
    if HasPrefix (c :: t) substr then some 0
    else (indexAux substr t).map (· + 1)

/-- Go `strings.Index`: the index of the first instance of `substr` in `s`, or `-1`. -/
def Index (s substr : Str) : Int :=
  match indexAux substr s with
  | some i => (i : Int)
  | none => -1

/-- The loop of `strings.Count` for a non-empty `substr`: count non-overlapping instances.
Every round consumes at least one character of `s`, so `s.length + 1` rounds suffice. -/
def countLoop (substr : Str) : Nat → Str → Nat → Nat
  | 0, _, n => n
  | fuel + 1, s, n =>
    let i := Index s substr
    if i = -1 then n
    else countLoop substr fuel (s.drop (i.toNat + substr.length)) (n + 1)

/-- Go `strings.Count`: the number of non-overlapping instances of `substr` in `s`;
for an empty `substr` it is `1 +` the number of runes of `s`, one per element here. -/
def Count (s substr : Str) : Nat :=
  if substr.length = 0 then s.length + 1
  else countLoop substr (s.length + 1) s 0

/-- The replacement loop of `strings.Replace`: `n` rounds, `i` the round number, `start`
the read position in `s`, `b` the builder. After the loop the rest of `s` is written.
For an empty `old` every round after the first steps over one rune, one element here;
with `n = 1`, as in `handleSpa`, that step is never taken. -/
def replaceLoop (s old new : Str) : Nat → Nat → Nat → Str → Str
  | 0, _, start, b => b ++ s.drop start
  | n + 1, i, start, b =>
    let j : Nat :=
      if old.length = 0 then
        (if i > 0 then start + (if start < s.length then 1 else 0) else start)
      else start + (Index (s.drop start) old).toNat
    replaceLoop s old new n (i + 1) (j + old.length)
      (b ++ (s.take j).drop start ++ new)

/-- Go `strings.Replace`: a copy of `s` with the first `n` non-overlapping instances of
`old` replaced by `new`; no limit when `n < 0`. -/
def Replace (s old new : Str) (n : Int) : Str :=
  if old = new ∨ n = 0 then s
  else
    let m := Count s old
    if m = 0 then s
    else
      let n := if n < 0 ∨ (m : Int) < n then m else n.toNat
      replaceLoop s old new n 0 0 []

/-! ## Data model -/

/-- Go `Resource`: `Dir` is the directory of the files, `Path` the http path served from it. -/
structure Resource where
  Dir : Str
  Path : Str
  deriving DecidableEq, Repr

/-- Go `SinglePage`: the directory and the file name of the single page document. -/
structure SinglePage where
  Dir : Str
  File : Str
  deriving DecidableEq, Repr

/-- Go `SpaConfig`. `Mux` is a pointer to an `http.ServeMux`, `none` for nil. -/
structure SpaConfig where
  Resources : List Resource
  SinglePage : SinglePage
  Mux : Option Nat
  deriving DecidableEq, Repr

/-- Go `(*SinglePage).String`: `p.Dir + "/" + p.File`. -/
def SinglePage.String (p : SinglePage) : Str :=
  p.Dir ++ "/".toList ++ p.File

/-- The filesystem, as seen through the two calls of the package. -/
structure FS where
  /-- Whether `os.Stat` on the path returns a nil error. -/
  Stat : Str → Bool
  /-- The result of `ioutil.ReadFile` on the path: the bytes, or `none` for an error. -/
  ReadFile : Str → Option Str

/-- An `http.ResponseWriter`: `status` is `none` until the header has been written. -/
structure ResponseWriter where
  status : Option Nat
  body : Str
  deriving DecidableEq, Repr

/-- A response writer as the server hands it to a handler. -/
def ResponseWriter.fresh : ResponseWriter := ⟨none, []⟩

/-- Go `WriteHeader`: sends the status code; a second call has no effect on the status. -/
def ResponseWriter.WriteHeader (w : ResponseWriter) (code : Nat) : ResponseWriter :=
  match w.status with
  | some _ => w
  | none => { w with status := some code }

/-- Go `Write`: calls `WriteHeader(200)` when no header was written, then sends the bytes. -/
def ResponseWriter.Write (w : ResponseWriter) (b : Str) : ResponseWriter :=
  let w1 := w.WriteHeader 200
  { w1 with body := w1.body ++ b }

/-- The status code the client receives: 200 when the handler never wrote a header. -/
def ResponseWriter.StatusCode (w : ResponseWriter) : Nat :=
  w.status.getD 200

/-! ## The dispatch function -/

/-- The `for _, rs := range config.Resources` loop of `handleSpa`. The result is
`some w` when the loop body returned from the handler, `none` when the loop ran out. -/
def handleSpaLoop (fs : FS) (uri : Str) (w : ResponseWriter) :
    List Resource → Option ResponseWriter
  | [] => none
  | rs :: rest =>
    if HasPrefix uri rs.Path then
      let translated := Replace uri rs.Path rs.Dir 1
      match fs.ReadFile translated with
      | none => some (w.WriteHeader 404)
      | some b => some (w.Write b)
    else handleSpaLoop fs uri w rest

/-- Go `handleSpa`. `global` is the package variable, already dereferenced (`none` is the
nil pointer, on which the handler panics: the result is then `none`); `uri` is
`r.URL.Path`. -/
def handleSpa (fs : FS) (global : Option SpaConfig) (w : ResponseWriter) (uri : Str) :
    Option ResponseWriter :=
  match global with
  | none => none
  | some config =>
    match handleSpaLoop fs uri w config.Resources with
    | some w1 => some w1
    | none =>
      let b := (fs.ReadFile config.SinglePage.String).getD []
      some (w.Write b)

/-! ## The configuration builder -/

/-- Go `NewSpaConfig`: a configuration with the given mux and zero values elsewhere. -/
def NewSpaConfig (mux : Option Nat) : SpaConfig :=
  { Resources := [], SinglePage := ⟨[], []⟩, Mux := mux }

/-- Go `(*SpaConfig).DefineResources`: the loop appends every argument in turn. -/
def DefineResources (c : SpaConfig) (resources : List Resource) : SpaConfig :=
  resources.foldl (fun c r => { c with Resources := c.Resources ++ [r] }) c

/-- Go `(*SpaConfig).DefineSinglePage`, for a non-nil `page`. The first component is the
descriptor behind the `page` pointer after the call (it is rewritten in place); the
second is the configuration after the call, or the value of the panic. -/
def DefineSinglePage (fs : FS) (c : SpaConfig) (page : SinglePage) :
    SinglePage × Except Str SpaConfig :=
  let page1 : SinglePage :=
    if HasSuffix page.Dir "/".toList then { page with Dir := TrimRight page.Dir "/".toList }
    else page
  let page2 : SinglePage :=
    if HasPrefix page1.File "/".toList then
      { page1 with File := TrimLeft page1.File "/".toList }
    else page1
  if fs.Stat page2.String = false then
    (page2, Except.error ("Not found single page resource: ".toList ++ page2.String))
  else
    (page2, Except.ok { c with SinglePage := page2 })

/-- The state of the process the package lives in. -/
structure World where
  /-- The configurations allocated by `NewSpaConfig`; a pointer is an index. -/
  heap : List SpaConfig
  /-- The package variable `global`. -/
  global : Option Nat
  /-- The muxes on which the pattern "/" is registered (`none` is `http.DefaultServeMux`). -/
  registered : List (Option Nat)
  deriving DecidableEq, Repr

/-- The process before any call into the package. -/
def World.init : World := { heap := [], global := none, registered := [] }

/-- Go `(*SpaConfig).Build` on the configuration at pointer `p`: `global = c`, then the
registration of `handleSpa` for "/", which panics in `net/http` when the mux already has
that pattern; the assignment to `global` has happened by then. -/
def Build (w : World) (p : Nat) : World :=
  match w.heap.get? p with
  | none => w
  | some c =>
    let w1 := { w with global := some p }
    if c.Mux ∈ w1.registered then w1
    else { w1 with registered := c.Mux :: w1.registered }

/-- A call of the host application into the builder interface. -/
inductive Op where
  | NewSpaConfig (mux : Option Nat)
  | DefineResources (p : Nat) (resources : List Resource)
  | DefineSinglePage (p : Nat) (page : SinglePage)
  | Build (p : Nat)
  deriving DecidableEq, Repr

/-- One call, on the filesystem `fs`. A call on a pointer that was never allocated does
nothing; a panic of `DefineSinglePage` leaves the configuration as it was (the caller may
recover from it, as the package's test does). -/
def step (fs : FS) (w : World) : Op → World
  | Op.NewSpaConfig mux => { w with heap := w.heap ++ [NewSpaConfig mux] }
  | Op.DefineResources p resources =>
    match w.heap.get? p with
    | none => w
    | some c => { w with heap := w.heap.set p (DefineResources c resources) }
  | Op.DefineSinglePage p page =>
    match w.heap.get? p with
    | none => w
    | some c =>
      match (DefineSinglePage fs c page).2 with
      | Except.error _ => w
      | Except.ok c1 => { w with heap := w.heap.set p c1 }
  | Op.Build p => Build w p

/-- The state after a sequence of calls, from the initial process state. -/
def run (fs : FS) (ops : List Op) : World :=
  ops.foldl (step fs) World.init

/-- The configuration the dispatch function reads: `global`, dereferenced. -/
def World.active (w : World) : Option SpaConfig :=
  match w.global with
  | none => none
  | some p => w.heap.get? p

/-- A filesystem given by the table of its readable files; every listed path exists. -/
def FS.ofTable (files : List (Str × Str)) : FS :=
  { Stat := fun path => (files.lookup path).isSome
    ReadFile := fun path => files.lookup path }

/-! ## The set-up of the package's end-to-end test -/

/-- The resources of `setUpSpa` in `resolver_test.go`, with `/cwd` for the working
directory. -/
def testResources : List Resource :=
  [ { Dir := "/cwd/testdata/static".toList, Path := "/static".toList },
    { Dir := "/cwd/testdata/assets".toList, Path := "/assets".toList } ]

/-- The configuration `setUpSpa` builds. -/
def testConfig : SpaConfig :=
  { Resources := testResources
    SinglePage := { Dir := "/cwd/testdata".toList, File := "index.html".toList }
    Mux := some 0 }

/-- The files of the test: the single page, one script, one style sheet, and the source
file `resolver.go` in the working directory. The operating system resolves dot-dot
segments when a file is opened, so `resolver.go` is also what the third path below opens. -/
def testFS : FS :=
  FS.ofTable
    [ ("/cwd/testdata/index.html".toList, "<html>index</html>".toList),
      ("/cwd/testdata/static/index.js".toList, "console.log(1)".toList),
      ("/cwd/testdata/assets/index.css".toList, "body".toList),
      ("/cwd/resolver.go".toList, "package resolver".toList),
      ("/cwd/testdata/static/../../resolver.go".toList, "package resolver".toList) ]

/-- Two resources whose paths are both prefixes of "/static/js/app.js": the first
registered is the shorter one. -/
def overlapConfig : SpaConfig :=
  { Resources :=
      [ { Dir := "/srv/a".toList, Path := "/static".toList },
        { Dir := "/srv/b".toList, Path := "/static/js".toList } ]
    SinglePage := { Dir := "/srv".toList, File := "index.html".toList }
    Mux := none }

/-- A filesystem in which only the file of the second resource of `overlapConfig` and
the single page exist. -/
def overlapFS : FS :=
  FS.ofTable
    [ ("/srv/index.html".toList, "<html>index</html>".toList),
      ("/srv/b/app.js".toList, "app()".toList) ]

/-- A filesystem with no file at all. -/
def emptyFS : FS := FS.ofTable []

/-- The calls of `setUpSpa` in `resolver_test.go`. -/
def setUpSpaOps : List Op :=
  [ Op.NewSpaConfig (some 0),
    Op.DefineResources 0 testResources,
    Op.DefineSinglePage 0 { Dir := "/cwd/testdata".toList, File := "index.html".toList },
    Op.Build 0 ]

/-- A host that builds the router without defining a single page. -/
def buildOnlyOps : List Op :=
  [ Op.NewSpaConfig none, Op.Build 0 ]

/-! ## Lemmas on the string functions -/

theorem hasPrefix_iff (s pre : Str) : HasPrefix s pre = true ↔ pre <+: s := by
  unfold HasPrefix
  constructor
  · intro h
    simp only [Bool.and_eq_true, decide_eq_true_eq, beq_iff_eq] at h
    refine ⟨s.drop pre.length, ?_⟩
    have h2 := List.take_append_drop pre.length s
    rw [h.2] at h2
    exact h2
  · rintro ⟨t, rfl⟩
    simp

theorem hasPrefix_append (pre t : Str) : HasPrefix (pre ++ t) pre = true :=
  (hasPrefix_iff _ _).2 ⟨t, rfl⟩

theorem indexAux_of_hasPrefix (s pre : Str) (h : HasPrefix s pre = true) :
    indexAux pre s = some 0 := by
  cases s with
  | nil =>
    have : pre = [] := by
      have := (hasPrefix_iff _ _).1 h
      simpa using this
    simp [indexAux, this]
  | cons c t => simp [indexAux, h]

theorem index_of_hasPrefix (s pre : Str) (h : HasPrefix s pre = true) : Index s pre = 0 := by
  simp [Index, indexAux_of_hasPrefix s pre h]

theorem le_countLoop (substr : Str) (fuel : Nat) (s : Str) (n : Nat) :
    n ≤ countLoop substr fuel s n := by
  induction fuel generalizing s n with
  | zero => simp [countLoop]
  | succ k ih =>
    simp only [countLoop]
    split
    · exact le_rfl
    · exact le_trans (Nat.le_succ n) (ih _ _)

theorem count_pos_of_hasPrefix (s pre : Str) (h : HasPrefix s pre = true) :
    0 < Count s pre := by
  unfold Count
  split
  · exact Nat.succ_pos _
  · simp only [countLoop, index_of_hasPrefix s pre h]
    have := le_countLoop pre s.length (s.drop ((0 : Int).toNat + pre.length)) (0 + 1)
    simpa using this

theorem replace_one_of_hasPrefix (s old new : Str) (h : HasPrefix s old = true) :
    Replace s old new 1 = new ++ s.drop old.length := by
  obtain ⟨t, rfl⟩ := (hasPrefix_iff _ _).1 h
  unfold Replace
  by_cases hon : old = new
  · subst hon; simp
  · have hm := count_pos_of_hasPrefix _ _ h
    have hm0 : Count (old ++ t) old ≠ 0 := Nat.pos_iff_ne_zero.1 hm
    have hn : (if (1 : Int) < 0 ∨ ((Count (old ++ t) old : Nat) : Int) < 1
        then Count (old ++ t) old else (1 : Int).toNat) = 1 := by
      have : ¬ ((1 : Int) < 0 ∨ ((Count (old ++ t) old : Nat) : Int) < 1) := by
        omega
      rw [if_neg this]; rfl
    simp only [hon, one_ne_zero, or_self, if_false, hm0, hn]
    by_cases hl : old.length = 0
    · have : old = [] := List.length_eq_zero.1 hl
      subst this
      simp [replaceLoop]
    · have hi : Index (old ++ t) old = 0 := index_of_hasPrefix _ _ h
      simp [replaceLoop, hl, hi]

theorem slash_toList : "/".toList = ['/'] := rfl

theorem hasSuffix_slash_concat (t : Str) (c : Char) :
    HasSuffix (t ++ [c]) "/".toList = decide (c = '/') := by
  simp [HasSuffix, slash_toList]
  rfl

theorem hasPrefix_slash_cons (c : Char) (t : Str) :
    HasPrefix (c :: t) "/".toList = decide (c = '/') := by
  simp [HasPrefix, slash_toList]
  rfl

theorem str_nil_or_snoc (s : Str) : s = [] ∨ ∃ t c, s = t ++ [c] := by
  rcases List.eq_nil_or_concat s with h | ⟨t, c, h⟩
  · exact Or.inl h
  · exact Or.inr ⟨t, c, by rw [h, List.concat_eq_append]⟩

theorem trimRight_of_not_hasSuffix (s : Str) (h : HasSuffix s "/".toList = false) :
    TrimRight s "/".toList = s := by
  rcases str_nil_or_snoc s with rfl | ⟨t, c, rfl⟩
  · rfl
  · rw [hasSuffix_slash_concat] at h
    have hc : c ≠ '/' := by simpa using h
    unfold TrimRight
    apply List.rdropWhile_concat_neg
    simpa [slash_toList] using hc

theorem trimRight_append_slash (d : Str) (h : HasSuffix d "/".toList = false) :
    TrimRight (d ++ "/".toList) "/".toList = d := by
  have h1 : TrimRight (d ++ "/".toList) "/".toList = TrimRight d "/".toList := by
    unfold TrimRight
    rw [slash_toList]
    apply List.rdropWhile_concat_pos
    simp
  rw [h1, trimRight_of_not_hasSuffix d h]

theorem hasSuffix_trimRight (s : Str) : HasSuffix (TrimRight s "/".toList) "/".toList = false := by
  rcases str_nil_or_snoc (TrimRight s "/".toList) with h | ⟨t, c, h⟩
  · rw [h]; rfl
  · have hne : List.rdropWhile (fun c => "/".toList.contains c) s ≠ [] := by
      intro h0
      unfold TrimRight at h
      rw [h0] at h
      simp at h
    have hl := List.rdropWhile_last_not (fun c => "/".toList.contains c) s hne
    have hlast : (List.rdropWhile (fun c => "/".toList.contains c) s).getLast hne = c := by
      have h2 : List.rdropWhile (fun c => "/".toList.contains c) s = t ++ [c] := h
      have h3 := List.getLast_congr hne (by simp) h2
      rw [h3]; simp
    rw [hlast] at hl
    rw [h, hasSuffix_slash_concat]
    simpa [slash_toList] using hl

theorem trimLeft_of_not_hasPrefix (s : Str) (h : HasPrefix s "/".toList = false) :
    TrimLeft s "/".toList = s := by
  cases s with
  | nil => rfl
  | cons c t =>
    rw [hasPrefix_slash_cons] at h
    have hc : c ≠ '/' := by simpa using h
    simp [TrimLeft, slash_toList, List.dropWhile, hc]

theorem trimLeft_slash_append (f : Str) (h : HasPrefix f "/".toList = false) :
    TrimLeft ("/".toList ++ f) "/".toList = f := by
  have h1 : TrimLeft ("/".toList ++ f) "/".toList = TrimLeft f "/".toList := by
    simp [TrimLeft, slash_toList, List.dropWhile]
  rw [h1, trimLeft_of_not_hasPrefix f h]

theorem hasPrefix_trimLeft (s : Str) : HasPrefix (TrimLeft s "/".toList) "/".toList = false := by
  induction s with
  | nil => rfl
  | cons c t ih =>
    by_cases hc : c = '/'
    · subst hc
      have : TrimLeft ('/' :: t) "/".toList = TrimLeft t "/".toList := by
        simp [TrimLeft, slash_toList, List.dropWhile]
      rw [this]; exact ih
    · have : TrimLeft (c :: t) "/".toList = c :: t := by
        simp [TrimLeft, slash_toList, List.dropWhile, hc]
      rw [this, hasPrefix_slash_cons]
      simpa using hc


/-! ## Lemmas on the dispatch loop -/

theorem handleSpaLoop_none (fs : FS) (uri : Str) (w : ResponseWriter) (l : List Resource)
    (h : ∀ rs ∈ l, HasPrefix uri rs.Path = false) : handleSpaLoop fs uri w l = none := by
  induction l with
  | nil => rfl
  | cons r rest ih =>
    have hr : HasPrefix uri r.Path = false := h r (List.mem_cons_self _ _)
    have hrest : ∀ rs ∈ rest, HasPrefix uri rs.Path = false :=
      fun rs hrs => h rs (List.mem_cons_of_mem _ hrs)
    simp [handleSpaLoop, hr, ih hrest]

theorem handleSpaLoop_find (fs : FS) (uri : Str) (w : ResponseWriter) (l : List Resource)
    (rs : Resource) (h : l.find? (fun r => HasPrefix uri r.Path) = some rs) :
    handleSpaLoop fs uri w l =
      some (match fs.ReadFile (Replace uri rs.Path rs.Dir 1) with
        | none => w.WriteHeader 404
        | some b => w.Write b) := by
  induction l with
  | nil => simp at h
  | cons r rest ih =>
    by_cases hr : HasPrefix uri r.Path = true
    · have : r = rs := by simpa [List.find?, hr] using h
      subst this
      simp only [handleSpaLoop, hr, if_true]
      cases fs.ReadFile (Replace uri r.Path r.Dir 1) <;> rfl
    · have hr2 : HasPrefix uri r.Path = false := by simpa using hr
      have h2 : rest.find? (fun r => HasPrefix uri r.Path) = some rs := by
        simpa [List.find?, hr2] using h
      simp [handleSpaLoop, hr2, ih h2]

theorem find_of_split (uri : Str) (front back : List Resource) (rs : Resource)
    (hfront : ∀ r ∈ front, HasPrefix uri r.Path = false)
    (hrs : HasPrefix uri rs.Path = true) :
    (front ++ rs :: back).find? (fun r => HasPrefix uri r.Path) = some rs := by
  induction front with
  | nil => simp [List.find?, hrs]
  | cons r rest ih =>
    have hr : HasPrefix uri r.Path = false := hfront r (List.mem_cons_self _ _)
    have hrest : ∀ x ∈ rest, HasPrefix uri x.Path = false :=
      fun x hx => hfront x (List.mem_cons_of_mem _ hx)
    simpa [List.find?, hr] using ih hrest


/-! ## The dispatch function -/

/-- C1: when the single page's composed path is readable and no configured
`Resource.Path` is a prefix of the request path, `handleSpa` answers with status 200 and
a body equal to the bytes of the single page file. -/
theorem handleSpa_fallback (fs : FS) (config : SpaConfig) (uri b : Str)
    (hread : fs.ReadFile (config.SinglePage.Dir ++ "/".toList ++ config.SinglePage.File)
      = some b)
    (hnone : ∀ rs ∈ config.Resources, HasPrefix uri rs.Path = false) :
    handleSpa fs (some config) ResponseWriter.fresh uri
      = some { status := some 200, body := b } := by
  have hloop := handleSpaLoop_none fs uri ResponseWriter.fresh config.Resources hnone
  have hread2 : fs.ReadFile config.SinglePage.String = some b := hread
  simp only [handleSpa, hloop, hread2]
  simp [ResponseWriter.Write, ResponseWriter.WriteHeader, ResponseWriter.fresh]

/-- C1, on the test: "/baz" under the resources "/static" and "/assets". -/
theorem handleSpa_fallback_witness :
    handleSpa testFS (some testConfig) ResponseWriter.fresh "/baz".toList
      = some { status := some 200, body := "<html>index</html>".toList } :=
  handleSpa_fallback testFS testConfig "/baz".toList "<html>index</html>".toList
    (by decide) (by decide)

/-- The single page paths of the package's end-to-end test that reach `handleSpa` as
they are written. -/
theorem handleSpa_test_paths :
    ∀ uri ∈ ["/".toList, "/baz".toList, "/foo/bar".toList, "/bar/baz".toList,
        "/testdata/static/index.js".toList, "/resolver.go".toList],
      handleSpa testFS (some testConfig) ResponseWriter.fresh uri
        = some { status := some 200, body := "<html>index</html>".toList } := by
  decide

/-- C2: when some `Resource.Path` is a prefix of the request path and the path translated
with the first such resource is a readable file, `handleSpa` answers with status 200 and
exactly that file's bytes. -/
theorem handleSpa_resource_found (fs : FS) (config : SpaConfig) (uri b : Str)
    (rs : Resource)
    (hfirst : config.Resources.find? (fun r => HasPrefix uri r.Path) = some rs)
    (hread : fs.ReadFile (Replace uri rs.Path rs.Dir 1) = some b) :
    handleSpa fs (some config) ResponseWriter.fresh uri
      = some { status := some 200, body := b } := by
  have hloop := handleSpaLoop_find fs uri ResponseWriter.fresh config.Resources rs hfirst
  simp only [handleSpa, hloop, hread]
  simp [ResponseWriter.Write, ResponseWriter.WriteHeader, ResponseWriter.fresh]

/-- C2, on the test: "/assets/index.css" is served from the second resource. -/
theorem handleSpa_resource_found_witness :
    handleSpa testFS (some testConfig) ResponseWriter.fresh "/assets/index.css".toList
      = some { status := some 200, body := "body".toList } :=
  handleSpa_resource_found testFS testConfig "/assets/index.css".toList "body".toList
    { Dir := "/cwd/testdata/assets".toList, Path := "/assets".toList }
    (by decide) (by decide)

/-- C3: when some `Resource.Path` is a prefix of the request path and the path translated
with the first such resource cannot be read, `handleSpa` answers with status 404 and an
empty body; the single page is not served, whatever the filesystem holds for it. -/
theorem handleSpa_resource_missing (fs : FS) (config : SpaConfig) (uri : Str)
    (rs : Resource)
    (hfirst : config.Resources.find? (fun r => HasPrefix uri r.Path) = some rs)
    (hread : fs.ReadFile (Replace uri rs.Path rs.Dir 1) = none) :
    handleSpa fs (some config) ResponseWriter.fresh uri
        = some { status := some 404, body := [] }
      ∧ ∀ page : Str, fs.ReadFile config.SinglePage.String = some page →
          handleSpa fs (some config) ResponseWriter.fresh uri
            ≠ some { status := some 200, body := page } := by
  have hloop := handleSpaLoop_find fs uri ResponseWriter.fresh config.Resources rs hfirst
  have hres : handleSpa fs (some config) ResponseWriter.fresh uri
      = some { status := some 404, body := [] } := by
    simp only [handleSpa, hloop, hread]
    simp [ResponseWriter.WriteHeader, ResponseWriter.fresh]
  refine ⟨hres, ?_⟩
  intro page _ hcontra
  rw [hres] at hcontra
  simp at hcontra

/-- C3, on the test: "/static/foo.js" has no file, and the single page is readable. -/
theorem handleSpa_resource_missing_witness :
    testFS.ReadFile testConfig.SinglePage.String = some "<html>index</html>".toList
      ∧ handleSpa testFS (some testConfig) ResponseWriter.fresh "/static/foo.js".toList
        = some { status := some 404, body := [] } :=
  ⟨by decide,
    (handleSpa_resource_missing testFS testConfig "/static/foo.js".toList
      { Dir := "/cwd/testdata/static".toList, Path := "/static".toList }
      (by decide) (by decide)).1⟩

/-- C4: matching is first-match-wins in registration order. When the resource table is
`front ++ rs :: back`, no path of `front` is a prefix of the request path and `rs.Path`
is one, the response is the bytes of the file translated with `rs` (status 200), or 404
with an empty body when it cannot be read; the resources after `rs`, whatever their
paths and files, and the single page have no part in it. -/
theorem handleSpa_first_match (fs : FS) (config : SpaConfig) (uri : Str)
    (front back : List Resource) (rs : Resource)
    (htable : config.Resources = front ++ rs :: back)
    (hfront : ∀ r ∈ front, HasPrefix uri r.Path = false)
    (hrs : HasPrefix uri rs.Path = true) :
    handleSpa fs (some config) ResponseWriter.fresh uri
        = some (match fs.ReadFile (Replace uri rs.Path rs.Dir 1) with
          | some b => { status := some 200, body := b }
          | none => { status := some 404, body := [] })
      ∧ ∀ (back1 : List Resource) (page1 : SinglePage) (mux1 : Option Nat),
          handleSpa fs (some config) ResponseWriter.fresh uri
            = handleSpa fs
                (some { Resources := front ++ rs :: back1, SinglePage := page1, Mux := mux1 })
                ResponseWriter.fresh uri := by
  have key : ∀ (c : SpaConfig) (bk : List Resource), c.Resources = front ++ rs :: bk →
      handleSpa fs (some c) ResponseWriter.fresh uri
        = some (match fs.ReadFile (Replace uri rs.Path rs.Dir 1) with
          | some b => { status := some 200, body := b }
          | none => { status := some 404, body := [] }) := by
    intro c bk hc
    have hfind := find_of_split uri front bk rs hfront hrs
    rw [← hc] at hfind
    have hloop := handleSpaLoop_find fs uri ResponseWriter.fresh c.Resources rs hfind
    simp only [handleSpa, hloop]
    cases fs.ReadFile (Replace uri rs.Path rs.Dir 1) <;>
      simp [ResponseWriter.Write, ResponseWriter.WriteHeader, ResponseWriter.fresh]
  refine ⟨key config back htable, ?_⟩
  intro back1 page1 mux1
  rw [key config back htable, key _ back1 rfl]

/-- C4, on two overlapping resources: "/static/js/app.js" is answered from "/static",
the first registered, with 404, although the file of the longer path "/static/js"
exists. -/
theorem handleSpa_first_match_witness :
    overlapFS.ReadFile (Replace "/static/js/app.js".toList "/static/js".toList
        "/srv/b".toList 1) = some "app()".toList
      ∧ handleSpa overlapFS (some overlapConfig) ResponseWriter.fresh
          "/static/js/app.js".toList = some { status := some 404, body := [] } :=
  ⟨by decide,
    (handleSpa_first_match overlapFS overlapConfig "/static/js/app.js".toList []
      [{ Dir := "/srv/b".toList, Path := "/static/js".toList }]
      { Dir := "/srv/a".toList, Path := "/static".toList }
      rfl (by decide) (by decide)).1⟩

/-- C5: for a request path that has `Path` as a prefix, the path translated by
`strings.Replace(uri, Path, Dir, 1)` is `Dir` followed by the request path without its
leading `Path`: the occurrence at position 0 is the one replaced, what follows it is
copied unchanged, and the operation works on characters, not on path segments. -/
theorem replace_prefix_once (uri path dir : Str) (h : HasPrefix uri path = true) :
    Replace uri path dir 1 = dir ++ uri.drop path.length
      ∧ ∀ rest : Str, uri = path ++ rest → Replace uri path dir 1 = dir ++ rest := by
  have h1 := replace_one_of_hasPrefix uri path dir h
  refine ⟨h1, ?_⟩
  intro rest hrest
  rw [h1, hrest]
  simp

/-- C5, on the examples: a second "/static" in the path is kept, and "/staticfoo"
matches "/static" although it is not a path segment; the empty path is a prefix too. -/
theorem replace_prefix_once_witness :
    Replace "/static/static/a.js".toList "/static".toList "D".toList 1
        = "D/static/a.js".toList
      ∧ Replace "/staticfoo".toList "/static".toList "D".toList 1 = "Dfoo".toList
      ∧ Replace "/a.js".toList [] "D".toList 1 = "D/a.js".toList :=
  ⟨(replace_prefix_once "/static/static/a.js".toList "/static".toList "D".toList
      (by decide)).1,
    (replace_prefix_once "/staticfoo".toList "/static".toList "D".toList (by decide)).1,
    (replace_prefix_once "/a.js".toList [] "D".toList (by decide)).1⟩


/-! ## The configuration builder -/

theorem defineSinglePage_eq (fs : FS) (c : SpaConfig) (page : SinglePage) :
    DefineSinglePage fs c page
      = if fs.Stat (SinglePage.String
            { Dir := TrimRight page.Dir "/".toList, File := TrimLeft page.File "/".toList })
            = false then
          ({ Dir := TrimRight page.Dir "/".toList, File := TrimLeft page.File "/".toList },
            Except.error ("Not found single page resource: ".toList ++ SinglePage.String
              { Dir := TrimRight page.Dir "/".toList, File := TrimLeft page.File "/".toList }))
        else
          ({ Dir := TrimRight page.Dir "/".toList, File := TrimLeft page.File "/".toList },
            Except.ok { c with SinglePage :=
              { Dir := TrimRight page.Dir "/".toList,
                File := TrimLeft page.File "/".toList } }) := by
  have hd : (if HasSuffix page.Dir "/".toList = true
      then ({ page with Dir := TrimRight page.Dir "/".toList } : SinglePage) else page)
      = { Dir := TrimRight page.Dir "/".toList, File := page.File } := by
    by_cases h : HasSuffix page.Dir "/".toList = true
    · rw [if_pos h]
    · rw [if_neg h]
      have h2 : HasSuffix page.Dir "/".toList = false := Bool.eq_false_iff.2 h
      rw [trimRight_of_not_hasSuffix page.Dir h2]
  have hf : (if HasPrefix page.File "/".toList = true
      then ({ Dir := TrimRight page.Dir "/".toList,
              File := TrimLeft page.File "/".toList } : SinglePage)
      else { Dir := TrimRight page.Dir "/".toList, File := page.File })
      = { Dir := TrimRight page.Dir "/".toList, File := TrimLeft page.File "/".toList } := by
    by_cases h : HasPrefix page.File "/".toList = true
    · rw [if_pos h]
    · rw [if_neg h]
      have h2 : HasPrefix page.File "/".toList = false := Bool.eq_false_iff.2 h
      rw [trimLeft_of_not_hasPrefix page.File h2]
  unfold DefineSinglePage
  dsimp only
  rw [hd, hf]

theorem defineResources_eq (c : SpaConfig) (rs : List Resource) :
    DefineResources c rs = { c with Resources := c.Resources ++ rs } := by
  unfold DefineResources
  induction rs generalizing c with
  | nil => simp
  | cons r rest ih => simp [List.foldl, ih]


/-- C6: `DefineSinglePage` panics exactly when the normalised composed path (the
directory without trailing "/", then "/", then the file name without leading "/") does
not exist, and the value of the panic is "Not found single page resource: " followed by
that path. -/
theorem defineSinglePage_panic (fs : FS) (c : SpaConfig) (page : SinglePage) :
    ((∃ v, (DefineSinglePage fs c page).2 = Except.error v)
        ↔ fs.Stat (TrimRight page.Dir "/".toList ++ "/".toList
            ++ TrimLeft page.File "/".toList) = false)
      ∧ ∀ v, (DefineSinglePage fs c page).2 = Except.error v →
          v = "Not found single page resource: ".toList
            ++ (TrimRight page.Dir "/".toList ++ "/".toList
              ++ TrimLeft page.File "/".toList) := by
  rw [defineSinglePage_eq]
  by_cases h : fs.Stat (SinglePage.String
      { Dir := TrimRight page.Dir "/".toList, File := TrimLeft page.File "/".toList }) = false
  · rw [if_pos h]
    refine ⟨⟨fun _ => h, fun _ => ⟨_, rfl⟩⟩, ?_⟩
    intro v hv
    injection hv with hv
    exact hv.symm
  · rw [if_neg h]
    refine ⟨⟨?_, fun h2 => absurd h2 h⟩, ?_⟩
    · rintro ⟨v, hv⟩
      cases hv
    · intro v hv
      cases hv

/-- The panic of the package's test `TestSpPanic`: no "./index.html" on the filesystem. -/
theorem defineSinglePage_panic_test :
    (DefineSinglePage emptyFS (NewSpaConfig none)
        { Dir := ".".toList, File := "index.html".toList }).2
      = Except.error "Not found single page resource: ./index.html".toList := rfl

/-- C7: the normalisation of `DefineSinglePage` is canonical. For a directory `d` not
ending in "/" and a file name `f` not starting with "/", the descriptor
`(d + "/", "/" + f)` is normalised to `(d, f)`, with composed path `d + "/" + f` and the
same outcome of the call as for `(d, f)`, which is left unchanged; and for every
descriptor the normalised `Dir` has no trailing "/" and the normalised `File` no leading
"/", in the descriptor behind the pointer and in the stored one. -/
theorem defineSinglePage_canonical (fs : FS) (c : SpaConfig) (d f : Str)
    (hd : HasSuffix d "/".toList = false) (hf : HasPrefix f "/".toList = false) :
    (DefineSinglePage fs c { Dir := d ++ "/".toList, File := "/".toList ++ f }).1
        = { Dir := d, File := f }
      ∧ (DefineSinglePage fs c { Dir := d, File := f }).1 = { Dir := d, File := f }
      ∧ (DefineSinglePage fs c { Dir := d ++ "/".toList, File := "/".toList ++ f }).1.String
        = d ++ "/".toList ++ f
      ∧ (DefineSinglePage fs c { Dir := d ++ "/".toList, File := "/".toList ++ f }).2
        = (DefineSinglePage fs c { Dir := d, File := f }).2
      ∧ ∀ page : SinglePage,
          HasSuffix (DefineSinglePage fs c page).1.Dir "/".toList = false
          ∧ HasPrefix (DefineSinglePage fs c page).1.File "/".toList = false
          ∧ ∀ c1, (DefineSinglePage fs c page).2 = Except.ok c1 →
              HasSuffix c1.SinglePage.Dir "/".toList = false
              ∧ HasPrefix c1.SinglePage.File "/".toList = false := by
  have e1 : DefineSinglePage fs c { Dir := d ++ "/".toList, File := "/".toList ++ f }
      = DefineSinglePage fs c { Dir := d, File := f } := by
    rw [defineSinglePage_eq, defineSinglePage_eq]
    dsimp only
    rw [trimRight_append_slash d hd, trimLeft_slash_append f hf,
      trimRight_of_not_hasSuffix d hd, trimLeft_of_not_hasPrefix f hf]
  have e2 : (DefineSinglePage fs c { Dir := d, File := f }).1 = { Dir := d, File := f } := by
    rw [defineSinglePage_eq]
    dsimp only
    rw [trimRight_of_not_hasSuffix d hd, trimLeft_of_not_hasPrefix f hf]
    split <;> rfl
  refine ⟨by rw [e1, e2], e2, by rw [e1, e2]; rfl, by rw [e1], ?_⟩
  intro page
  have e3 : (DefineSinglePage fs c page).1
      = { Dir := TrimRight page.Dir "/".toList, File := TrimLeft page.File "/".toList } := by
    rw [defineSinglePage_eq]
    split <;> rfl
  refine ⟨by rw [e3]; exact hasSuffix_trimRight _, by rw [e3]; exact hasPrefix_trimLeft _, ?_⟩
  intro c1 hc1
  rw [defineSinglePage_eq] at hc1
  split at hc1
  · cases hc1
  · injection hc1 with hc1
    subst hc1
    exact ⟨hasSuffix_trimRight _, hasPrefix_trimLeft _⟩

/-- C7, on "/cwd/testdata/" and "/index.html": the same descriptor and composed path as
for "/cwd/testdata" and "index.html". -/
theorem defineSinglePage_canonical_witness :
    (DefineSinglePage testFS (NewSpaConfig none)
        { Dir := "/cwd/testdata/".toList, File := "/index.html".toList }).1
        = { Dir := "/cwd/testdata".toList, File := "index.html".toList }
      ∧ (DefineSinglePage testFS (NewSpaConfig none)
          { Dir := "/cwd/testdata/".toList, File := "/index.html".toList }).1.String
        = "/cwd/testdata/index.html".toList :=
  ⟨(defineSinglePage_canonical testFS (NewSpaConfig none) "/cwd/testdata".toList
      "index.html".toList (by decide) (by decide)).1,
    (defineSinglePage_canonical testFS (NewSpaConfig none) "/cwd/testdata".toList
      "index.html".toList (by decide) (by decide)).2.2.1⟩

/-- C8: `DefineResources` is a cumulative, order-preserving append. After the call the
resource table is the former one followed by the arguments, as given; the single page
and the mux are unchanged; and two calls in a row leave the same configuration as one
call with the two argument lists joined. -/
theorem defineResources_append (c : SpaConfig) (rs : List Resource) :
    (DefineResources c rs).Resources = c.Resources ++ rs
      ∧ (DefineResources c rs).SinglePage = c.SinglePage
      ∧ (DefineResources c rs).Mux = c.Mux
      ∧ ∀ rs2 : List Resource,
          DefineResources (DefineResources c rs) rs2 = DefineResources c (rs ++ rs2) := by
  refine ⟨by rw [defineResources_eq], by rw [defineResources_eq], by rw [defineResources_eq], ?_⟩
  intro rs2
  simp [defineResources_eq]


/-! ## Reachable states of the builder -/

theorem run_snoc (fs : FS) (ops : List Op) (op : Op) :
    run fs (ops ++ [op]) = step fs (run fs ops) op := by
  simp [run, List.foldl_append]

/-- What every configuration of a reachable state satisfies: its single page is the zero
value, or it was stored by a `DefineSinglePage` call of the trace whose check succeeded. -/
theorem run_heap_checked (fs : FS) (ops : List Op) :
    ∀ (q : Nat) (c : SpaConfig), (run fs ops).heap.get? q = some c →
      c.SinglePage = { Dir := [], File := [] }
      ∨ (fs.Stat c.SinglePage.String = true
          ∧ ∃ page, Op.DefineSinglePage q page ∈ ops
              ∧ (DefineSinglePage fs c page).1 = c.SinglePage) := by
  induction ops using List.reverseRecOn with
  | nil =>
    intro q c h
    simp [run, World.init] at h
  | append_singleton ops op ih =>
    have weaken : ∀ (q : Nat) (c : SpaConfig),
        (c.SinglePage = { Dir := [], File := [] }
          ∨ (fs.Stat c.SinglePage.String = true
            ∧ ∃ page, Op.DefineSinglePage q page ∈ ops
                ∧ (DefineSinglePage fs c page).1 = c.SinglePage)) →
        (c.SinglePage = { Dir := [], File := [] }
          ∨ (fs.Stat c.SinglePage.String = true
            ∧ ∃ page, Op.DefineSinglePage q page ∈ ops ++ [op]
                ∧ (DefineSinglePage fs c page).1 = c.SinglePage)) := by
      intro q c h
      rcases h with h | ⟨h1, page, h2, h3⟩
      · exact Or.inl h
      · exact Or.inr ⟨h1, page, List.mem_append_left _ h2, h3⟩
    intro q c h
    rw [run_snoc] at h
    cases op with
    | NewSpaConfig mux =>
      simp only [step] at h
      by_cases hq : q < (run fs ops).heap.length
      · rw [List.get?_eq_getElem?, List.getElem?_append_left hq] at h
        exact weaken q c (ih q c (by rw [List.get?_eq_getElem?]; exact h))
      · rw [List.get?_eq_getElem?, List.getElem?_append_right (Nat.le_of_not_lt hq)] at h
        have hc : c = NewSpaConfig mux := by
          cases hk : q - (run fs ops).heap.length with
          | zero => rw [hk] at h; simpa using h.symm
          | succ k => rw [hk] at h; simp at h
        left
        rw [hc]; rfl
    | DefineResources p resources =>
      simp only [step] at h
      cases hp : (run fs ops).heap.get? p with
      | none =>
        rw [hp] at h
        exact weaken q c (ih q c h)
      | some c0 =>
        rw [hp] at h
        simp only [] at h
        by_cases hqp : p = q
        · subst hqp
          have hlt : p < (run fs ops).heap.length := by
            rw [List.get?_eq_getElem?] at hp
            exact (List.getElem?_eq_some_iff.1 hp).1
          rw [List.get?_eq_getElem?, List.getElem?_set_self hlt] at h
          have hc : c = DefineResources c0 resources := by
            injection h with h; exact h.symm
          have hsp : c.SinglePage = c0.SinglePage := by
            rw [hc, defineResources_eq]
          have hfst : ∀ page, (DefineSinglePage fs c page).1 = (DefineSinglePage fs c0 page).1 := by
            intro page
            rw [defineSinglePage_eq, defineSinglePage_eq]
            split <;> rfl
          rcases weaken p c0 (ih p c0 hp) with h0 | ⟨h1, page, h2, h3⟩
          · exact Or.inl (by rw [hsp, h0])
          · exact Or.inr ⟨by rw [hsp]; exact h1, page, h2, by rw [hfst, hsp]; exact h3⟩
        · rw [List.get?_eq_getElem?, List.getElem?_set_ne hqp] at h
          exact weaken q c (ih q c (by rw [List.get?_eq_getElem?]; exact h))
    | DefineSinglePage p page =>
      simp only [step] at h
      cases hp : (run fs ops).heap.get? p with
      | none =>
        rw [hp] at h
        exact weaken q c (ih q c h)
      | some c0 =>
        rw [hp] at h
        simp only [] at h
        rw [defineSinglePage_eq] at h
        by_cases hstat : fs.Stat (SinglePage.String
            { Dir := TrimRight page.Dir "/".toList, File := TrimLeft page.File "/".toList })
            = false
        · rw [if_pos hstat] at h
          exact weaken q c (ih q c h)
        · rw [if_neg hstat] at h
          simp only [] at h
          by_cases hqp : p = q
          · subst hqp
            have hlt : p < (run fs ops).heap.length := by
              rw [List.get?_eq_getElem?] at hp
              exact (List.getElem?_eq_some_iff.1 hp).1
            rw [List.get?_eq_getElem?, List.getElem?_set_self hlt] at h
            injection h with h
            subst h
            right
            refine ⟨by simpa using hstat, page, by simp, ?_⟩
            rw [defineSinglePage_eq]
            split <;> rfl
          · rw [List.get?_eq_getElem?, List.getElem?_set_ne hqp] at h
            exact weaken q c (ih q c (by rw [List.get?_eq_getElem?]; exact h))
    | Build p =>
      have hheap : (step fs (run fs ops) (Op.Build p)).heap = (run fs ops).heap := by
        simp only [step, Build]
        cases (run fs ops).heap.get? p with
        | none => rfl
        | some c0 =>
          simp only []
          split <;> rfl
      rw [hheap] at h
      exact weaken q c (ih q c h)

/-- In a reachable state `global` is nil or points to an allocated configuration. -/
theorem run_global_allocated (fs : FS) (ops : List Op) :
    ∀ p, (run fs ops).global = some p → ∃ c, (run fs ops).heap.get? p = some c := by
  induction ops using List.reverseRecOn with
  | nil =>
    intro p h
    simp [run, World.init] at h
  | append_singleton ops op ih =>
    intro p h
    rw [run_snoc] at h ⊢
    cases op with
    | NewSpaConfig mux =>
      simp only [step] at h ⊢
      obtain ⟨c, hc⟩ := ih p h
      have hlt : p < (run fs ops).heap.length := by
        rw [List.get?_eq_getElem?] at hc
        exact (List.getElem?_eq_some_iff.1 hc).1
      exact ⟨c, by rw [List.get?_eq_getElem?, List.getElem?_append_left hlt,
        ← List.get?_eq_getElem?]; exact hc⟩
    | DefineResources q resources =>
      simp only [step] at h ⊢
      cases hq : (run fs ops).heap.get? q with
      | none =>
        rw [hq] at h
        exact ih p h
      | some c0 =>
        rw [hq] at h
        simp only [] at h ⊢
        obtain ⟨c, hc⟩ := ih p h
        have hlt : p < (run fs ops).heap.length := by
          rw [List.get?_eq_getElem?] at hc
          exact (List.getElem?_eq_some_iff.1 hc).1
        have hlt2 : p < ((run fs ops).heap.set q (DefineResources c0 resources)).length := by
          simpa using hlt
        exact ⟨_, by rw [List.get?_eq_getElem?]; exact List.getElem?_eq_getElem hlt2⟩
    | DefineSinglePage q page =>
      simp only [step] at h ⊢
      cases hq : (run fs ops).heap.get? q with
      | none =>
        rw [hq] at h
        exact ih p h
      | some c0 =>
        rw [hq] at h
        simp only [] at h ⊢
        cases hres : (DefineSinglePage fs c0 page).2 with
        | error v =>
          rw [hres] at h
          exact ih p h
        | ok c1 =>
          rw [hres] at h
          simp only [] at h ⊢
          obtain ⟨c, hc⟩ := ih p h
          have hlt : p < (run fs ops).heap.length := by
            rw [List.get?_eq_getElem?] at hc
            exact (List.getElem?_eq_some_iff.1 hc).1
          have hlt2 : p < ((run fs ops).heap.set q c1).length := by
            simpa using hlt
          exact ⟨_, by rw [List.get?_eq_getElem?]; exact List.getElem?_eq_getElem hlt2⟩
    | Build q =>
      simp only [step, Build] at h ⊢
      cases hq : (run fs ops).heap.get? q with
      | none =>
        rw [hq] at h
        exact ih p h
      | some c0 =>
        rw [hq] at h
        simp only [] at h ⊢
        have hpq : q = p := by
          split at h
          · simpa using h
          · simpa using h
        subst hpq
        refine ⟨c0, ?_⟩
        split <;> exact hq


/-- C9, as the code has it: in every state reached through the builder operations on a
fixed filesystem in which `Build` has published a configuration as the global one, that
configuration is allocated, and its single page is either still the zero value (`Build`
asks for no `DefineSinglePage` call) or the normalised descriptor of a
`DefineSinglePage` call of the trace on that configuration, whose composed path the
existence check found. -/
theorem active_single_page_checked (fs : FS) (ops : List Op) (p : Nat)
    (hactive : (run fs ops).global = some p) :
    ∃ c, (run fs ops).active = some c
      ∧ (c.SinglePage = { Dir := [], File := [] }
        ∨ (fs.Stat c.SinglePage.String = true
            ∧ ∃ page, Op.DefineSinglePage p page ∈ ops
                ∧ (DefineSinglePage fs c page).1 = c.SinglePage)) := by
  obtain ⟨c, hc⟩ := run_global_allocated fs ops p hactive
  refine ⟨c, ?_, run_heap_checked fs ops p c hc⟩
  simp only [World.active, hactive]
  exact hc

/-- C9, on the calls of the test's `setUpSpa`: the active configuration holds the
checked single page. -/
theorem active_single_page_checked_witness :
    (run testFS setUpSpaOps).global = some 0
      ∧ ∃ c, (run testFS setUpSpaOps).active = some c
        ∧ (c.SinglePage = { Dir := [], File := [] }
          ∨ (testFS.Stat c.SinglePage.String = true
              ∧ ∃ page, Op.DefineSinglePage 0 page ∈ setUpSpaOps
                  ∧ (DefineSinglePage testFS c page).1 = c.SinglePage)) :=
  ⟨by decide, active_single_page_checked testFS setUpSpaOps 0 (by decide)⟩

/-- C9 fails as stated: after `NewSpaConfig(nil)` and `Build()` alone the router is
active, no `DefineSinglePage` call was made, and the active single page is the zero
value, whose composed path "/" was never checked and does not exist on this filesystem. -/
theorem build_without_single_page :
    (run emptyFS buildOnlyOps).global = some 0
      ∧ (∀ op ∈ buildOnlyOps, ∀ q page, op ≠ Op.DefineSinglePage q page)
      ∧ (run emptyFS buildOnlyOps).active = some (NewSpaConfig none)
      ∧ (NewSpaConfig none).SinglePage.String = "/".toList
      ∧ emptyFS.Stat (NewSpaConfig none).SinglePage.String = false := by
  refine ⟨by decide, ?_, by decide, by decide, by decide⟩
  intro op hop q page hEq
  subst hEq
  simp [buildOnlyOps] at hop

/-! ## Request paths with dot-dot segments -/

/-- C10, as the code has it: `handleSpa` does not clean the request path. A path of
which no configured `Resource.Path` is a prefix, with or without dot-dot segments and
whatever file it names, is answered with status 200 and the single page's bytes, and
the answer is the same on every filesystem that agrees on the single page file. A path
that begins with the path of a resource (the first such, `rs`) is answered from the
read of `rs.Dir` followed by the rest of the path as it stands. -/
theorem handleSpa_no_path_cleaning (fs : FS) (config : SpaConfig) (uri : Str) :
    ((∀ rs ∈ config.Resources, HasPrefix uri rs.Path = false) →
      ∀ b, fs.ReadFile config.SinglePage.String = some b →
        handleSpa fs (some config) ResponseWriter.fresh uri
            = some { status := some 200, body := b }
          ∧ ∀ fs2 : FS, fs2.ReadFile config.SinglePage.String = some b →
              handleSpa fs2 (some config) ResponseWriter.fresh uri
                = some { status := some 200, body := b })
      ∧ ∀ (rs : Resource) (rest : Str),
          config.Resources.find? (fun r => HasPrefix uri r.Path) = some rs →
          uri = rs.Path ++ rest →
          handleSpa fs (some config) ResponseWriter.fresh uri
            = some (match fs.ReadFile (rs.Dir ++ rest) with
              | some b => { status := some 200, body := b }
              | none => { status := some 404, body := [] }) := by
  constructor
  · intro hnone b hb
    have key : ∀ f : FS, f.ReadFile config.SinglePage.String = some b →
        handleSpa f (some config) ResponseWriter.fresh uri
          = some { status := some 200, body := b } := by
      intro f hf
      have hloop := handleSpaLoop_none f uri ResponseWriter.fresh config.Resources hnone
      simp only [handleSpa, hloop, hf]
      simp [ResponseWriter.Write, ResponseWriter.WriteHeader, ResponseWriter.fresh]
    exact ⟨key fs hb, key⟩
  · intro rs rest hfind huri
    have hloop := handleSpaLoop_find fs uri ResponseWriter.fresh config.Resources rs hfind
    have hpre : HasPrefix uri rs.Path = true := by
      rw [huri]; exact hasPrefix_append _ _
    have htr : Replace uri rs.Path rs.Dir 1 = rs.Dir ++ rest := by
      rw [replace_one_of_hasPrefix uri rs.Path rs.Dir hpre, huri]
      simp
    simp only [handleSpa, hloop, htr]
    cases fs.ReadFile (rs.Dir ++ rest) <;>
      simp [ResponseWriter.Write, ResponseWriter.WriteHeader, ResponseWriter.fresh]

/-- C10, on the test: "/../resolver.go" has no configured path as a prefix and is
answered with the single page; "/static/../../resolver.go" is answered from the read
of "/cwd/testdata/static" followed by "/../../resolver.go". -/
theorem handleSpa_no_path_cleaning_witness :
    handleSpa testFS (some testConfig) ResponseWriter.fresh "/../resolver.go".toList
        = some { status := some 200, body := "<html>index</html>".toList }
      ∧ handleSpa testFS (some testConfig) ResponseWriter.fresh
          "/static/../../resolver.go".toList
        = some (match testFS.ReadFile
              ("/cwd/testdata/static".toList ++ "/../../resolver.go".toList) with
          | some b => { status := some 200, body := b }
          | none => { status := some 404, body := [] }) :=
  ⟨((handleSpa_no_path_cleaning testFS testConfig "/../resolver.go".toList).1
      (by decide) "<html>index</html>".toList (by decide)).1,
    (handleSpa_no_path_cleaning testFS testConfig "/static/../../resolver.go".toList).2
      { Dir := "/cwd/testdata/static".toList, Path := "/static".toList }
      "/../../resolver.go".toList (by decide) (by decide)⟩

/-- C10 fails as stated: for "/static/../../resolver.go" under the resources "/static"
and "/assets" of the test, `handleSpa` answers with the bytes of the file the dot-dot
segments lead to, not with the single page, which is readable. -/
theorem handleSpa_traversal_served :
    HasPrefix "/static/../../resolver.go".toList "/static".toList = true
      ∧ testFS.ReadFile testConfig.SinglePage.String = some "<html>index</html>".toList
      ∧ testFS.ReadFile "/cwd/resolver.go".toList = some "package resolver".toList
      ∧ handleSpa testFS (some testConfig) ResponseWriter.fresh
          "/static/../../resolver.go".toList
        = some { status := some 200, body := "package resolver".toList }
      ∧ handleSpa testFS (some testConfig) ResponseWriter.fresh
          "/static/../../resolver.go".toList
        ≠ some { status := some 200, body := "<html>index</html>".toList } := by
  refine ⟨by decide, by decide, by decide, by decide, by decide⟩

end Resolver
